import Mathlib

/-!
Shallow embedding of the core of `doq` (`src/lib.rs`): a recurring-task
tracker.  The embedding models

* calendar dates (`chrono::NaiveDate`) as year/month/day triples over the
  proleptic Gregorian calendar, with a rata-die day count used for ordering,
  day arithmetic and day differences;
* the `Repeat` rule enum, `days_until_due`, `next_due_date` (the recurrence
  loop, modelled with explicit fuel plus a convergence relation, since the
  Rust loop can diverge for zero-sized intervals), `repeat_from_string`;
* the string-wrapped `Date` type with its chrono-backed format/parse
  round-trip, and the `VersionedTask::upversioned` schema migration.

Rust `u32 as i32` casts are modelled exactly (two's-complement wrap);
`u32` additions and `%` follow release-profile (wrapping) semantics.
Rust panics (`expect` on `None`, slice-index underflow, date overflow in
`chrono`) are modelled as explicit `none` / `panicked` outcomes.
-/

/-! ## The Gregorian calendar (model of `chrono::NaiveDate`) -/

/-- Proleptic Gregorian leap-year test (as used by chrono). -/
def isLeapYear (y : Int) : Bool :=
  y % 4 == 0 && (y % 100 != 0 || y % 400 == 0)

/-- Number of days in month `m` (1-based) of year `y`. -/
def daysInMonth (y : Int) (m : Nat) : Nat :=
  match m with
  | 1 => 31
  | 2 => if isLeapYear y then 29 else 28
  | 3 => 31
  | 4 => 30
  | 5 => 31
  | 6 => 30
  | 7 => 31
  | 8 => 31
  | 9 => 30
  | 10 => 31
  | 11 => 30
  | 12 => 31
  | _ => 0

/-- Days of year `y` strictly before month `m` (1-based). -/
def daysBeforeMonth (y : Int) : Nat → Nat
  | 0 => 0
  | 1 => 0
  | m + 2 => daysBeforeMonth y (m + 1) + daysInMonth y (m + 1)

/-- A calendar date: model of `chrono::NaiveDate` (no time of day, no
timezone).  Chrono stores year plus day-of-year; we store the equivalent
year/month/day triple. -/
structure NaiveDate where
  year : Int
  month : Nat
  day : Nat
  deriving DecidableEq, Repr

/-- The month/day fields describe a real calendar day of `year`. -/
def ValidYMD (d : NaiveDate) : Prop :=
  1 ≤ d.month ∧ d.month ≤ 12 ∧ 1 ≤ d.day ∧ d.day ≤ daysInMonth d.year d.month

instance (d : NaiveDate) : Decidable (ValidYMD d) := by
  unfold ValidYMD; infer_instance

/-- Leap days in years `1..y` (floor division; `/` on `Int` is Euclidean
division, which agrees with floor for positive divisors). -/
def leapsBefore (y : Int) : Int :=
  y / 4 - y / 100 + y / 400

/-- Rata-die day number: day 1 is 0001-01-01.  Chronological order and day
distance of `chrono::NaiveDate` values coincide with order and distance of
their rata-die numbers. -/
def rataDie (d : NaiveDate) : Int :=
  365 * (d.year - 1) + leapsBefore (d.year - 1)
    + (daysBeforeMonth d.year d.month : Int) + (d.day : Int)

/-- Calendar successor of a date. -/
def nextDay (d : NaiveDate) : NaiveDate :=
  if d.day < daysInMonth d.year d.month then ⟨d.year, d.month, d.day + 1⟩
  else if d.month < 12 then ⟨d.year, d.month + 1, 1⟩
  else ⟨d.year + 1, 1, 1⟩

/-- Calendar predecessor of a date. -/
def prevDay (d : NaiveDate) : NaiveDate :=
  if 1 < d.day then ⟨d.year, d.month, d.day - 1⟩
  else if 1 < d.month then ⟨d.year, d.month - 1, daysInMonth d.year (d.month - 1)⟩
  else ⟨d.year - 1, 12, 31⟩

/-- Smallest year representable by `chrono::NaiveDate` (chrono 0.4). -/
def MIN_YEAR : Int := -262144

/-- Largest year representable by `chrono::NaiveDate` (chrono 0.4). -/
def MAX_YEAR : Int := 262143

/-- A date `chrono::NaiveDate` can actually represent. -/
def ChronoValid (d : NaiveDate) : Prop :=
  ValidYMD d ∧ MIN_YEAR ≤ d.year ∧ d.year ≤ MAX_YEAR

instance (d : NaiveDate) : Decidable (ChronoValid d) := by
  unfold ChronoValid; infer_instance

/-- Rata-die number of the largest representable date. -/
def maxRataDie : Int := rataDie ⟨MAX_YEAR, 12, 31⟩

/-- Model of `NaiveDate::with_year`: same month/day in year `y`; `none`
(the Rust `None`) if `y` is out of chrono's range or the month/day does not
exist in year `y` (Feb 29 of a non-leap year). -/
def withYear (d : NaiveDate) (y : Int) : Option NaiveDate :=
  if MIN_YEAR ≤ y ∧ y ≤ MAX_YEAR ∧ d.day ≤ daysInMonth y d.month then
    some ⟨y, d.month, d.day⟩
  else none

/-- Model of `NaiveDate::with_month0`: same year/day with 0-based month
`m0`; `none` if `m0 > 11` or the day does not exist in the target month. -/
def withMonth0 (d : NaiveDate) (m0 : Nat) : Option NaiveDate :=
  if m0 ≤ 11 ∧ d.day ≤ daysInMonth d.year (m0 + 1) then
    some ⟨d.year, m0 + 1, d.day⟩
  else none

/-- Model of `NaiveDate + Duration::days(n)` for `n ≥ 0`: `n`-fold calendar
successor; `none` models the panic chrono raises when the result would
exceed the representable range. -/
def addDays (n : Nat) (d : NaiveDate) : Option NaiveDate :=
  if rataDie d + (n : Int) ≤ maxRataDie then some (nextDay^[n] d) else none

/-- Rust `u32 as i32` cast (two's-complement reinterpretation). -/
def asI32 (v : Nat) : Int :=
  if v % 2 ^ 32 < 2 ^ 31 then ((v % 2 ^ 32 : Nat) : Int)
  else ((v % 2 ^ 32 : Nat) : Int) - 2 ^ 32

/-! ## The doq core (model of `src/lib.rs`) -/

/-- `Repeat` from `src/lib.rs` (counts are Rust `u32`, so 0 ≤ n < 2^32). -/
inductive Repeat where
  | Never
  | Days (n : Nat)
  | Months (n : Nat)
  | Years (n : Nat)
  deriving DecidableEq, Repr

/-- `days_until_due(due_date, today)`: chrono's
`due_date.signed_duration_since(today).num_days()`, i.e. the signed
rata-die difference. -/
def days_until_due (due_date today : NaiveDate) : Int :=
  rataDie due_date - rataDie today

/-- One `Months(i)` advance, exactly as in the loop body of
`next_due_date`: `months = month0 + i` in wrapping `u32` arithmetic, then
`with_year(year + months as i32 / 12)` (Rust `/` on `i32` truncates, hence
`Int.tdiv`; the `i32` addition cannot overflow since chrono years are
bounded by 262144 and the quotient by 2^31/12) composed with
`with_month0(months % 12)`.  `none` is the argument of the
`.expect("TODO: something???")`, i.e. a panic. -/
def monthStep (i : Nat) (d : NaiveDate) : Option NaiveDate :=
  let months : Nat := (d.month - 1 + i) % 2 ^ 32
  (withYear d (d.year + Int.tdiv (asI32 months) 12)).bind
    (fun e => withMonth0 e (months % 12))

/-- One `Years(i)` advance: `with_year(year + i as i32)`.  `none` is the
argument of `.expect("TODO: something?")`, i.e. a panic.  (A further `i32`
overflow in the addition is impossible for results chrono accepts, and any
overflowing value is out of chrono's year range, hence `none` either
way.) -/
def yearStep (i : Nat) (d : NaiveDate) : Option NaiveDate :=
  withYear d (d.year + asI32 i)

/-- Per-iteration advance of the `next_due_date` loop for each non-`Never`
rule (`Never` returns from inside the loop instead of advancing; its entry
here is unused). -/
def stepOf : Repeat → NaiveDate → Option NaiveDate
  | .Never, _ => none
  | .Days i, d => addDays i d
  | .Months i, d => monthStep i d
  | .Years i, d => yearStep i d

/-- Result of running `next_due_date`: it can panic (`expect` on `None`,
or date overflow), return Rust `None`, or return `Some(date)`. -/
inductive NextDueOutcome where
  | panicked
  | retNone
  | retSome (d : NaiveDate)
  deriving DecidableEq, Repr

/-- Fuel-indexed unfolding of the `while due_date <= date_completed` loop
of `next_due_date(previous_date_due, date_completed, repeat)`.  The
condition is checked before fuel is spent, so a `none` result means the
loop ran out of fuel, and `some o` is the Rust outcome.  Dates are
compared by rata-die number (chrono's chronological order). -/
def next_due_date_fuel (r : Repeat) (date_completed : NaiveDate) :
    Nat → NaiveDate → Option NextDueOutcome
  | 0, due =>
    if rataDie due ≤ rataDie date_completed then none
    else some (.retSome due)
  | fuel + 1, due =>
    if rataDie due ≤ rataDie date_completed then
      match r with
      | .Never => some .retNone
      | .Days i =>
        match addDays i due with
        | some e => next_due_date_fuel r date_completed fuel e
        | none => some .panicked
      | .Months i =>
        match monthStep i due with
        | some e => next_due_date_fuel r date_completed fuel e
        | none => some .panicked
      | .Years i =>
        match yearStep i due with
        | some e => next_due_date_fuel r date_completed fuel e
        | none => some .panicked
    else some (.retSome due)

/-- `next_due_date(previous_date_due, date_completed, r)` terminates with
outcome `o` (for some amount of fuel; the relation is a partial function
by `NextDueDateIs_det` below). -/
def NextDueDateIs (previous_date_due date_completed : NaiveDate)
    (r : Repeat) (o : NextDueOutcome) : Prop :=
  ∃ fuel, next_due_date_fuel r date_completed fuel previous_date_due = some o

/-- `next_due_date` terminates at all on these arguments. -/
def NextDueTerminates (previous_date_due date_completed : NaiveDate)
    (r : Repeat) : Prop :=
  ∃ o, NextDueDateIs previous_date_due date_completed r o

/-- `next_due_date` returns `Some` date on these arguments. -/
def NextDueProducesSome (previous_date_due date_completed : NaiveDate)
    (r : Repeat) : Prop :=
  ∃ d, NextDueDateIs previous_date_due date_completed r (.retSome d)

/-- `k`-fold iteration of a fallible advance (the recurrence lattice
anchored at the argument date, in the no-panic region). -/
def stepIterF (step : NaiveDate → Option NaiveDate) :
    Nat → NaiveDate → Option NaiveDate
  | 0, d => some d
  | k + 1, d => (step d).bind (stepIterF step k)

/-! ## Strings and digits

Rust strings are modelled as `List Char`; the doq inputs of interest are
ASCII, where byte positions and character positions agree. -/

/-- The ASCII digit character for `d < 10`. -/
def digitChar (d : Nat) : Char := Char.ofNat (48 + d)

/-- Numeric value of a digit string (base 10, most significant first),
as computed by folding up Rust-style: `acc * 10 + digit`. -/
def natOfChars (cs : List Char) : Nat :=
  cs.foldl (fun a c => 10 * a + (c.toNat - 48)) 0

/-- Little-endian decimal digits of `n` (empty for 0); `fuel ≥ n`
guarantees full expansion (structural recursion stand-in for division
recursion). -/
def natCharsRev : Nat → Nat → List Char
  | 0, _ => []
  | fuel + 1, n =>
    if n = 0 then [] else digitChar (n % 10) :: natCharsRev fuel (n / 10)

/-- Decimal digit string of `n`, most significant first (empty for 0). -/
def natChars (n : Nat) : List Char := (natCharsRev n n).reverse

/-- Zero-pad a digit string on the left to width `k`. -/
def padZero (k : Nat) (cs : List Char) : List Char :=
  List.replicate (k - cs.length) '0' ++ cs

/-! ## `repeat_from_string` (model of `src/lib.rs`) -/

/-- The string `"never"`. -/
def neverChars : List Char := ['n', 'e', 'v', 'e', 'r']

/-- Rust `str::parse::<u32>()`: optional leading `+`, then one or more
ASCII digits, value below `2^32`; anything else is `Err`. -/
def parseU32 (cs : List Char) : Option Nat :=
  let ds := match cs with
    | '+' :: t => t
    | t => t
  if ds ≠ [] ∧ ds.all Char.isDigit then
    if natOfChars ds < 2 ^ 32 then some (natOfChars ds) else none
  else none

/-- `repeat_from_string`.  The outer `Option` models the panics of
`string.split_at(string.len() - 1)`, where `len()` is the UTF-8 byte
length: on the empty string the `usize` subtraction underflows, and on a
string whose final character is multi-byte (scalar value ≥ 128, hence
more than one UTF-8 byte) the index `len - 1` falls inside that character
and is not a char boundary — both panic, hence `none`.  When the final
character is a single byte, byte index `len - 1` is its boundary, so the
byte-level split coincides with the character-level `take`/`drop` used
here, and the result is `some` of the Rust `Result`, with the two error
strings from the source. -/
def repeat_from_string (s : List Char) : Option (Except String Repeat) :=
  if s = neverChars then some (.ok .Never)
  else if s.length = 0 then none
  else if 128 ≤ (s.getLast?.getD ' ').toNat then none
  else
    let count := s.take (s.length - 1)
    let unit := s.drop (s.length - 1)
    match parseU32 count with
    | none => some (.error "Expected a number")
    | some c =>
      if unit = ['d'] then some (.ok (.Days c))
      else if unit = ['m'] then some (.ok (.Months c))
      else if unit = ['y'] then some (.ok (.Years c))
      else some (.error "Expected a suffix (d, m, y) for days, months, or years")

/-- The textual grammar `repeat_from_string` implements: `"never"`, or a
`u32` integer literal followed by one of the unit letters `d`, `m`, `y`. -/
def GrammarOk (s : List Char) (r : Repeat) : Prop :=
  (s = neverChars ∧ r = .Never)
  ∨ (∃ body n, parseU32 body = some n ∧
      ((s = body ++ ['d'] ∧ r = .Days n)
        ∨ (s = body ++ ['m'] ∧ r = .Months n)
        ∨ (s = body ++ ['y'] ∧ r = .Years n)))

/-! ## The string-wrapped `Date` type (model of `data::Date`) -/

/-- `Date(String)` from `src/lib.rs`: an opaque string wrapper. -/
structure Date where
  s : List Char
  deriving DecidableEq, Repr

/-- Chrono's `Display` for `NaiveDate` (`%Y-%m-%d`): years 0..=9999 are
zero-padded to four digits with no sign; years outside that range carry an
explicit sign. -/
def formatYear (y : Int) : List Char :=
  if 0 ≤ y ∧ y ≤ 9999 then padZero 4 (natChars y.toNat)
  else if y < 0 then '-' :: padZero 4 (natChars y.natAbs)
  else '+' :: padZero 4 (natChars y.natAbs)

/-- `format!("{}", date)` for a `chrono::NaiveDate`. -/
def formatDate (d : NaiveDate) : List Char :=
  formatYear d.year ++ '-' :: (padZero 2 (natChars d.month) ++ '-' :: padZero 2 (natChars d.day))

/-- `impl From<NaiveDate> for Date`. -/
def dateFromNaive (d : NaiveDate) : Date := ⟨formatDate d⟩

/-- Split off a maximal prefix of at most `limit` ASCII digits. -/
def splitDigits : Nat → List Char → List Char × List Char
  | 0, cs => ([], cs)
  | _ + 1, [] => ([], [])
  | limit + 1, c :: cs =>
    if c.isDigit then
      let p := splitDigits limit cs
      (c :: p.1, p.2)
    else ([], c :: cs)

/-- Year/month/day body of an ISO-8601 date, after the optional year sign:
year digits (at most `ylimit`), `-`, 1-2 month digits, `-`, 1-2 day
digits, end of input; the resulting triple must be a representable
chrono date, otherwise parsing fails (no defaulting). -/
def parseDateBody (sgn : Int) (ylimit : Nat) (t : List Char) : Option NaiveDate :=
  let py := splitDigits ylimit t
  if py.1 = [] then none
  else
    match py.2 with
    | '-' :: r2 =>
      let pm := splitDigits 2 r2
      if pm.1 = [] then none
      else
        match pm.2 with
        | '-' :: r4 =>
          let pd := splitDigits 2 r4
          if pd.1 ≠ [] ∧ pd.2 = [] then
            let dt : NaiveDate :=
              ⟨sgn * (natOfChars py.1 : Int), natOfChars pm.1, natOfChars pd.1⟩
            if ChronoValid dt then some dt else none
          else none
        | _ => none
    | _ => none

/-- `chrono::NaiveDate::from_str` (`%Y-%m-%d` per chrono's documented
behaviour): an unsigned year reads at most four digits; a signed year
(`+`/`-` prefix) reads arbitrarily many, with chrono's range check
rejecting out-of-range values. -/
def parseDate (cs : List Char) : Option NaiveDate :=
  match cs with
  | [] => parseDateBody 1 4 []
  | c :: t =>
    if c = '+' then parseDateBody 1 t.length t
    else if c = '-' then parseDateBody (-1) t.length t
    else parseDateBody 1 4 (c :: t)

/-- `Date::as_naive`. -/
def Date.as_naive (d : Date) : Option NaiveDate := parseDate d.s

/-! ## Tasks and schema migration (model of `data` in `src/lib.rs`) -/

/-- Current-schema `Task`.  (`Task` is taken by Lean core and `repeat` is a
Lean keyword, hence the names `DoqTask` and `rep`.) -/
structure DoqTask where
  name : List Char
  date_completed : Option Date
  date_due : Date
  rep : Repeat
  at_least : Bool
  deriving DecidableEq, Repr

/-- Legacy v0.1.0 task record. -/
structure Task010 where
  name : List Char
  frequency_days : Nat
  last_completed : Option Date
  deriving DecidableEq, Repr

/-- `VersionedTask`: either schema, as decoded by shape. -/
inductive VersionedTask where
  | Current (t : DoqTask)
  | Version010 (t : Task010)
  deriving DecidableEq, Repr

/-- Result of `VersionedTask::upversioned`: a task, `None` (record
dropped), or a panic propagated out of `next_due_date`. -/
inductive UpResult where
  | task (t : DoqTask)
  | dropped
  | panicked
  deriving DecidableEq, Repr

/-- `VersionedTask::upversioned`, as a relation because it calls the
(possibly diverging) `next_due_date`.  `today` is the impure
`Utc::today()` made explicit.  For a legacy record: the rule is
`Days(frequency_days)`; a missing `last_completed` gives due date `today`;
an unparseable one makes the due-date computation yield Rust `None`, so
the record is dropped; otherwise the outcome of
`next_due_date(lc, lc, rule)` decides the result, and `date_completed` is
the parsed date re-serialized. -/
def UpversionedIs (today : NaiveDate) : VersionedTask → UpResult → Prop
  | .Current t, res => res = .task t
  | .Version010 t, res =>
    match t.last_completed with
    | none =>
      res = .task ⟨t.name, none, dateFromNaive today, .Days t.frequency_days, false⟩
    | some lc =>
      match lc.as_naive with
      | none => res = .dropped
      | some d =>
        (∃ dd, NextDueDateIs d d (.Days t.frequency_days) (.retSome dd) ∧
          res = .task ⟨t.name, some (dateFromNaive d), dateFromNaive dd,
            .Days t.frequency_days, false⟩)
        ∨ (NextDueDateIs d d (.Days t.frequency_days) .retNone ∧ res = .dropped)
        ∨ (NextDueDateIs d d (.Days t.frequency_days) .panicked ∧ res = .panicked)

/-- `upversioned` produces any result at all (it diverges when
`next_due_date` does). -/
def UpProduces (today : NaiveDate) (vt : VersionedTask) : Prop :=
  ∃ res, UpversionedIs today vt res

/-- Rule counts for which the recurrence loop provably terminates: any
`Never`; positive day counts; positive month/year counts small enough that
the `u32 as i32` cast in the loop body cannot wrap. -/
def CountOk : Repeat → Prop
  | .Never => True
  | .Days i => 1 ≤ i
  | .Months i => 1 ≤ i ∧ i ≤ 2 ^ 31 - 12
  | .Years i => 1 ≤ i ∧ i ≤ 2 ^ 31 - 12

/-- Month index of a date: months elapsed since 0000-01 (used to reason
about `Months`/`Years` advancement, which moves dates along this index). -/
def monthIdx (d : NaiveDate) : Int := 12 * d.year + (d.month : Int) - 1

/-- Date with month index `k` (year `k / 12`, month `k % 12 + 1`) and the
given day-of-month field. -/
def ofIdx (k : Int) (day : Nat) : NaiveDate := ⟨k / 12, (k % 12).toNat + 1, day⟩

/-! ## Calendar arithmetic lemmas -/

theorem leapsBefore_succ (y : Int) :
    leapsBefore y - leapsBefore (y - 1) = if isLeapYear y then 1 else 0 := by
  unfold leapsBefore isLeapYear
  simp only [Bool.and_eq_true, Bool.or_eq_true, beq_iff_eq, bne_iff_ne, decide_eq_true_eq]
  split
  · omega
  · omega

theorem daysInMonth_pos (y : Int) (m : Nat) (h1 : 1 ≤ m) (h2 : m ≤ 12) :
    28 ≤ daysInMonth y m := by
  interval_cases m <;> simp only [daysInMonth] <;> first | omega | (split <;> omega)

theorem daysBeforeMonth_succ (y : Int) (m : Nat) (h : 1 ≤ m) :
    daysBeforeMonth y (m + 1) = daysBeforeMonth y m + daysInMonth y m := by
  cases m with
  | zero => omega
  | succ k => rfl

theorem daysBeforeMonth_twelve (y : Int) :
    daysBeforeMonth y 12 = 334 + (if isLeapYear y then 1 else 0) := by
  show daysBeforeMonth y (10 + 2) = _
  cases h : isLeapYear y <;> simp [daysBeforeMonth, daysInMonth, h]

theorem rataDie_eq (d : NaiveDate) :
    rataDie d = 365 * (d.year - 1) + leapsBefore (d.year - 1)
      + (daysBeforeMonth d.year d.month : Int) + (d.day : Int) := rfl

theorem validYMD_iff (d : NaiveDate) :
    ValidYMD d ↔
      1 ≤ d.month ∧ d.month ≤ 12 ∧ 1 ≤ d.day ∧ d.day ≤ daysInMonth d.year d.month :=
  Iff.rfl

theorem daysBeforeMonth_one (y : Int) : daysBeforeMonth y 1 = 0 := rfl

theorem rataDie_nextDay (d : NaiveDate) (h : ValidYMD d) :
    rataDie (nextDay d) = rataDie d + 1 := by
  obtain ⟨h1, h2, h3, h4⟩ := h
  by_cases hc1 : d.day < daysInMonth d.year d.month
  · unfold nextDay
    rw [if_pos hc1]
    simp only [rataDie_eq]
    push_cast
    ring
  · by_cases hc2 : d.month < 12
    · unfold nextDay
      rw [if_neg hc1, if_pos hc2]
      have hd : d.day = daysInMonth d.year d.month := by omega
      simp only [rataDie_eq, daysBeforeMonth_succ d.year d.month h1]
      rw [hd]
      push_cast
      ring
    · unfold nextDay
      rw [if_neg hc1, if_neg hc2]
      have hm : d.month = 12 := by omega
      have hd : d.day = 31 := by
        rw [hm] at hc1 h4
        simp only [daysInMonth] at hc1 h4
        omega
      have hl := leapsBefore_succ d.year
      simp only [rataDie_eq, daysBeforeMonth_one, hm, hd, daysBeforeMonth_twelve,
        add_sub_cancel_right]
      cases hly : isLeapYear d.year <;> simp [hly] at hl ⊢ <;> omega

theorem nextDay_valid (d : NaiveDate) (h : ValidYMD d) : ValidYMD (nextDay d) := by
  obtain ⟨h1, h2, h3, h4⟩ := h
  by_cases hc1 : d.day < daysInMonth d.year d.month
  · unfold nextDay
    rw [if_pos hc1]
    simp only [validYMD_iff]
    exact ⟨h1, h2, by omega, by omega⟩
  · by_cases hc2 : d.month < 12
    · unfold nextDay
      rw [if_neg hc1, if_pos hc2]
      simp only [validYMD_iff]
      refine ⟨by omega, by omega, le_refl 1, ?_⟩
      have := daysInMonth_pos d.year (d.month + 1) (by omega) (by omega)
      omega
    · unfold nextDay
      rw [if_neg hc1, if_neg hc2]
      simp only [validYMD_iff]
      exact ⟨by omega, by omega, by omega, by simp [daysInMonth]⟩

theorem rataDie_iterate_nextDay (d : NaiveDate) (h : ValidYMD d) (k : Nat) :
    ValidYMD (nextDay^[k] d) ∧ rataDie (nextDay^[k] d) = rataDie d + k := by
  induction k with
  | zero => simpa using h
  | succ n ih =>
    rw [Function.iterate_succ_apply']
    refine ⟨nextDay_valid _ ih.1, ?_⟩
    rw [rataDie_nextDay _ ih.1, ih.2]
    push_cast
    ring

theorem rataDie_prevDay (d : NaiveDate) (h : ValidYMD d) :
    rataDie (prevDay d) = rataDie d - 1 := by
  obtain ⟨h1, h2, h3, h4⟩ := h
  by_cases hc1 : 1 < d.day
  · unfold prevDay
    rw [if_pos hc1]
    simp only [rataDie_eq]
    have : ((d.day - 1 : Nat) : Int) = (d.day : Int) - 1 := by omega
    rw [this]
    ring
  · by_cases hc2 : 1 < d.month
    · unfold prevDay
      rw [if_neg hc1, if_pos hc2]
      have hm : 1 ≤ d.month - 1 := by omega
      have hs := daysBeforeMonth_succ d.year (d.month - 1) hm
      have hm1 : d.month - 1 + 1 = d.month := by omega
      rw [hm1] at hs
      have hd : d.day = 1 := by omega
      simp only [rataDie_eq, hs, hd]
      push_cast
      ring
    · unfold prevDay
      rw [if_neg hc1, if_neg hc2]
      have hm : d.month = 1 := by omega
      have hd : d.day = 1 := by omega
      have hl := leapsBefore_succ (d.year - 1)
      simp only [rataDie_eq, hm, hd, daysBeforeMonth_twelve, daysBeforeMonth_one]
      cases hly : isLeapYear (d.year - 1) <;> simp [hly] at hl ⊢ <;> omega

/-! ## Month-index lemmas -/

theorem ofIdx_monthIdx (d : NaiveDate) (h1 : 1 ≤ d.month) (h2 : d.month ≤ 12) :
    ofIdx (monthIdx d) d.day = d := by
  cases d with
  | mk y m day =>
    simp only [ofIdx, monthIdx, NaiveDate.mk.injEq] at *
    exact ⟨by omega, by omega, trivial⟩

theorem rataDie_ofIdx_succ (k : Int) (day : Nat) :
    rataDie (ofIdx k day) + 1 ≤ rataDie (ofIdx (k + 1) day) := by
  by_cases hm : k % 12 = 11
  · have e1 : (k + 1) / 12 = k / 12 + 1 := by omega
    have e2 : (k + 1) % 12 = 0 := by omega
    have hA : ofIdx (k + 1) day = ⟨k / 12 + 1, 1, day⟩ := by
      unfold ofIdx
      rw [e1, e2]
      rfl
    have hB : ofIdx k day = ⟨k / 12, 12, day⟩ := by
      unfold ofIdx
      rw [hm]
      rfl
    have hl := leapsBefore_succ (k / 12)
    rw [hA, hB]
    simp only [rataDie_eq, daysBeforeMonth_one, daysBeforeMonth_twelve]
    cases hly : isLeapYear (k / 12) <;> simp [hly] at hl ⊢ <;> omega
  · have e1 : (k + 1) / 12 = k / 12 := by omega
    have e2 : ((k + 1) % 12).toNat = (k % 12).toNat + 1 := by omega
    rw [ofIdx, ofIdx, e1, e2]
    have hsucc := daysBeforeMonth_succ (k / 12) ((k % 12).toNat + 1) (by omega)
    have hpos := daysInMonth_pos (k / 12) ((k % 12).toNat + 1) (by omega) (by omega)
    simp only [rataDie_eq, hsucc]
    omega

theorem rataDie_ofIdx_add (k : Int) (day : Nat) (n : Nat) :
    rataDie (ofIdx k day) + n ≤ rataDie (ofIdx (k + n) day) := by
  induction n with
  | zero => simp
  | succ m ih =>
    have hs := rataDie_ofIdx_succ (k + m) day
    have : (k : Int) + (m + 1 : Nat) = k + m + 1 := by push_cast; ring
    rw [this]
    push_cast
    push_cast at ih
    omega

theorem asI32_of_lt (v : Nat) (h : v < 2 ^ 31) : asI32 v = (v : Int) := by
  unfold asI32
  rw [Nat.mod_eq_of_lt (by omega)]
  exact if_pos h

theorem tdiv_coe_twelve (a : Nat) : Int.tdiv (a : Int) 12 = ((a / 12 : Nat) : Int) := rfl

/-- Successful `Months(i)` advance, explicitly: for month counts below the
`u32 as i32` wrap, the result shifts the month index by `i` and keeps the
day-of-month, and the day fits the target month. -/
theorem monthStep_char (i : Nat) (d e : NaiveDate) (hm1 : 1 ≤ d.month)
    (hm2 : d.month ≤ 12) (hi : i ≤ 2 ^ 31 - 12)
    (hs : monthStep i d = some e) :
    e = ⟨d.year + ((d.month - 1 + i) / 12 : Nat), (d.month - 1 + i) % 12 + 1, d.day⟩
      ∧ d.day ≤ daysInMonth e.year e.month := by
  have hlt : d.month - 1 + i < 2 ^ 31 := by omega
  simp only [monthStep, Nat.mod_eq_of_lt (show d.month - 1 + i < 2 ^ 32 by omega),
    asI32_of_lt _ hlt, tdiv_coe_twelve, withYear] at hs
  by_cases hy : MIN_YEAR ≤ d.year + ((d.month - 1 + i) / 12 : Nat) ∧
      d.year + ((d.month - 1 + i) / 12 : Nat) ≤ MAX_YEAR ∧
      d.day ≤ daysInMonth (d.year + ((d.month - 1 + i) / 12 : Nat)) d.month
  · rw [if_pos hy] at hs
    simp only [Option.some_bind, withMonth0] at hs
    by_cases hm0 : (d.month - 1 + i) % 12 ≤ 11 ∧
        d.day ≤ daysInMonth (d.year + ((d.month - 1 + i) / 12 : Nat))
          ((d.month - 1 + i) % 12 + 1)
    · rw [if_pos hm0] at hs
      have he := Option.some.inj hs
      subst he
      exact ⟨rfl, hm0.2⟩
    · rw [if_neg hm0] at hs
      simp at hs
  · rw [if_neg hy] at hs
    simp at hs

/-- Successful `Years(i)` advance, explicitly (counts below the cast
wrap). -/
theorem yearStep_char (i : Nat) (d e : NaiveDate) (hi : i < 2 ^ 31)
    (hs : yearStep i d = some e) :
    e = ⟨d.year + i, d.month, d.day⟩ ∧ d.day ≤ daysInMonth (d.year + i) d.month := by
  simp only [yearStep, asI32_of_lt _ hi, withYear] at hs
  by_cases hy : MIN_YEAR ≤ d.year + (i : Int) ∧ d.year + (i : Int) ≤ MAX_YEAR ∧
      d.day ≤ daysInMonth (d.year + (i : Int)) d.month
  · rw [if_pos hy] at hs
    have he := Option.some.inj hs
    subst he
    exact ⟨rfl, hy.2.2⟩
  · rw [if_neg hy] at hs
    simp at hs

/-! ## Soundness of the per-iteration advances -/

theorem addDays_sound (i : Nat) (d e : NaiveDate) (hv : ValidYMD d)
    (hs : addDays i d = some e) :
    ValidYMD e ∧ rataDie e = rataDie d + i := by
  unfold addDays at hs
  by_cases hr : rataDie d + (i : Int) ≤ maxRataDie
  · rw [if_pos hr] at hs
    have he := Option.some.inj hs
    subst he
    exact ⟨(rataDie_iterate_nextDay d hv i).1, (rataDie_iterate_nextDay d hv i).2⟩
  · rw [if_neg hr] at hs
    simp at hs

theorem monthStep_sound (i : Nat) (d e : NaiveDate) (hv : ValidYMD d)
    (h1 : 1 ≤ i) (h2 : i ≤ 2 ^ 31 - 12) (hs : monthStep i d = some e) :
    ValidYMD e ∧ rataDie d + 1 ≤ rataDie e := by
  obtain ⟨hm1, hm2, hd1, hd4⟩ := hv
  obtain ⟨he, hday⟩ := monthStep_char i d e hm1 hm2 h2 hs
  have hvE : ValidYMD e := by
    rw [he] at hday ⊢
    simp only [validYMD_iff] at hday ⊢
    exact ⟨by omega, by omega, hd1, hday⟩
  refine ⟨hvE, ?_⟩
  have hof : ofIdx (monthIdx d + i) d.day = e := by
    rw [he]
    simp only [ofIdx, monthIdx, NaiveDate.mk.injEq]
    exact ⟨by omega, by omega, trivial⟩
  have hadd := rataDie_ofIdx_add (monthIdx d) d.day i
  rw [ofIdx_monthIdx d hm1 hm2, hof] at hadd
  omega

theorem yearStep_sound (i : Nat) (d e : NaiveDate) (hv : ValidYMD d)
    (h1 : 1 ≤ i) (h2 : i ≤ 2 ^ 31 - 12) (hs : yearStep i d = some e) :
    ValidYMD e ∧ rataDie d + 1 ≤ rataDie e := by
  obtain ⟨hm1, hm2, hd1, hd4⟩ := hv
  obtain ⟨he, hday⟩ := yearStep_char i d e (by omega) hs
  have hvE : ValidYMD e := by
    rw [he]
    simp only [validYMD_iff] at hday ⊢
    exact ⟨hm1, hm2, hd1, hday⟩
  refine ⟨hvE, ?_⟩
  have hof : ofIdx (monthIdx d + (12 * i : Nat)) d.day = e := by
    rw [he]
    simp only [ofIdx, monthIdx, NaiveDate.mk.injEq]
    refine ⟨by push_cast; omega, by push_cast; omega, trivial⟩
  have hadd := rataDie_ofIdx_add (monthIdx d) d.day (12 * i)
  rw [ofIdx_monthIdx d hm1 hm2, hof] at hadd
  omega

/-! ## Loop lemmas for `next_due_date` -/

theorem next_due_date_fuel_zero (r : Repeat) (c due : NaiveDate) :
    next_due_date_fuel r c 0 due =
      if rataDie due ≤ rataDie c then none else some (.retSome due) := rfl

theorem next_due_date_fuel_succ (r : Repeat) (hr : r ≠ .Never) (c due : NaiveDate)
    (fuel : Nat) :
    next_due_date_fuel r c (fuel + 1) due =
      if rataDie due ≤ rataDie c then
        match stepOf r due with
        | some e => next_due_date_fuel r c fuel e
        | none => some .panicked
      else some (.retSome due) := by
  cases r with
  | Never => exact absurd rfl hr
  | Days i => rfl
  | Months i => rfl
  | Years i => rfl

theorem next_due_date_fuel_never_succ (c due : NaiveDate) (fuel : Nat) :
    next_due_date_fuel .Never c (fuel + 1) due =
      if rataDie due ≤ rataDie c then some .retNone else some (.retSome due) := rfl

theorem next_due_date_fuel_mono (r : Repeat) (c : NaiveDate) :
    ∀ fuel due o, next_due_date_fuel r c fuel due = some o →
      next_due_date_fuel r c (fuel + 1) due = some o := by
  intro fuel
  induction fuel with
  | zero =>
    intro due o h
    rw [next_due_date_fuel_zero] at h
    by_cases hc : rataDie due ≤ rataDie c
    · rw [if_pos hc] at h
      simp at h
    · rw [if_neg hc] at h
      by_cases hR : r = .Never
      · subst hR
        rw [next_due_date_fuel_never_succ, if_neg hc]
        exact h
      · rw [next_due_date_fuel_succ r hR, if_neg hc]
        exact h
  | succ n ih =>
    intro due o h
    by_cases hR : r = .Never
    · subst hR
      rw [next_due_date_fuel_never_succ] at h ⊢
      exact h
    · rw [next_due_date_fuel_succ r hR] at h
      rw [next_due_date_fuel_succ r hR]
      by_cases hc : rataDie due ≤ rataDie c
      · rw [if_pos hc] at h ⊢
        cases hstep : stepOf r due with
        | none => simpa [hstep] using h
        | some e =>
          simp only [hstep] at h ⊢
          exact ih e o h
      · rw [if_neg hc] at h ⊢
        exact h

theorem next_due_date_fuel_le (r : Repeat) (c : NaiveDate) {fuel fuel' : Nat}
    (h : fuel ≤ fuel') :
    ∀ due o, next_due_date_fuel r c fuel due = some o →
      next_due_date_fuel r c fuel' due = some o := by
  induction h with
  | refl => exact fun due o hh => hh
  | step h2 ih =>
    intro due o hh
    exact next_due_date_fuel_mono r c _ due o (ih due o hh)

theorem NextDueDateIs_det {a c : NaiveDate} {r : Repeat} {o o' : NextDueOutcome}
    (h : NextDueDateIs a c r o) (h' : NextDueDateIs a c r o') : o = o' := by
  obtain ⟨n, hn⟩ := h
  obtain ⟨m, hm⟩ := h'
  rcases le_total n m with hle | hle
  · have := next_due_date_fuel_le r c hle a o hn
    rw [this] at hm
    exact Option.some.inj hm
  · have := next_due_date_fuel_le r c hle a o' hm
    rw [this] at hn
    exact (Option.some.inj hn).symm

theorem next_due_retSome_lattice (r : Repeat) (hr : r ≠ .Never) (c : NaiveDate) :
    ∀ fuel due d, next_due_date_fuel r c fuel due = some (.retSome d) →
      ∃ k, stepIterF (stepOf r) k due = some d ∧ rataDie c < rataDie d ∧
        ∀ j, j < k → ∃ e, stepIterF (stepOf r) j due = some e ∧ rataDie e ≤ rataDie c := by
  intro fuel
  induction fuel with
  | zero =>
    intro due d h
    rw [next_due_date_fuel_zero] at h
    by_cases hc : rataDie due ≤ rataDie c
    · rw [if_pos hc] at h
      simp at h
    · rw [if_neg hc] at h
      have hd := NextDueOutcome.retSome.inj (Option.some.inj h)
      subst hd
      exact ⟨0, rfl, by omega, fun j hj => absurd hj (by omega)⟩
  | succ n ih =>
    intro due d h
    rw [next_due_date_fuel_succ r hr] at h
    by_cases hc : rataDie due ≤ rataDie c
    · rw [if_pos hc] at h
      cases hstep : stepOf r due with
      | none => simp [hstep] at h
      | some e =>
        simp only [hstep] at h
        obtain ⟨k, hk1, hk2, hk3⟩ := ih e d h
        refine ⟨k + 1, ?_, hk2, ?_⟩
        · show (stepOf r due).bind (stepIterF (stepOf r) k) = some d
          rw [hstep, Option.some_bind]
          exact hk1
        · intro j hj
          cases j with
          | zero => exact ⟨due, rfl, hc⟩
          | succ jj =>
            obtain ⟨e', he1, he2⟩ := hk3 jj (by omega)
            refine ⟨e', ?_, he2⟩
            show (stepOf r due).bind (stepIterF (stepOf r) jj) = some e'
            rw [hstep, Option.some_bind]
            exact he1
    · rw [if_neg hc] at h
      have hd := NextDueOutcome.retSome.inj (Option.some.inj h)
      subst hd
      exact ⟨0, rfl, by omega, fun j hj => absurd hj (by omega)⟩

theorem next_due_panicked_reach (r : Repeat) (hr : r ≠ .Never) (c : NaiveDate) :
    ∀ fuel due, next_due_date_fuel r c fuel due = some .panicked →
      ∃ j e, stepIterF (stepOf r) j due = some e ∧ rataDie e ≤ rataDie c ∧
        stepOf r e = none := by
  intro fuel
  induction fuel with
  | zero =>
    intro due h
    rw [next_due_date_fuel_zero] at h
    by_cases hc : rataDie due ≤ rataDie c
    · rw [if_pos hc] at h
      simp at h
    · rw [if_neg hc] at h
      simp at h
  | succ n ih =>
    intro due h
    rw [next_due_date_fuel_succ r hr] at h
    by_cases hc : rataDie due ≤ rataDie c
    · rw [if_pos hc] at h
      cases hstep : stepOf r due with
      | none => exact ⟨0, due, rfl, hc, hstep⟩
      | some e =>
        simp only [hstep] at h
        obtain ⟨j, e', he1, he2, he3⟩ := ih e h
        refine ⟨j + 1, e', ?_, he2, he3⟩
        show (stepOf r due).bind (stepIterF (stepOf r) j) = some e'
        rw [hstep, Option.some_bind]
        exact he1
    · rw [if_neg hc] at h
      simp at h

theorem next_due_no_retNone (r : Repeat) (hr : r ≠ .Never) (c : NaiveDate) :
    ∀ fuel due, next_due_date_fuel r c fuel due ≠ some .retNone := by
  intro fuel
  induction fuel with
  | zero =>
    intro due h
    rw [next_due_date_fuel_zero] at h
    by_cases hc : rataDie due ≤ rataDie c
    · rw [if_pos hc] at h
      simp at h
    · rw [if_neg hc] at h
      simp at h
  | succ n ih =>
    intro due h
    rw [next_due_date_fuel_succ r hr] at h
    by_cases hc : rataDie due ≤ rataDie c
    · rw [if_pos hc] at h
      cases hstep : stepOf r due with
      | none => simp [hstep] at h
      | some e =>
        simp only [hstep] at h
        exact ih e h
    · rw [if_neg hc] at h
      simp at h

theorem next_due_total (r : Repeat) (hr : r ≠ .Never) (c : NaiveDate)
    (hstep : ∀ e e', ValidYMD e → stepOf r e = some e' →
      ValidYMD e' ∧ rataDie e + 1 ≤ rataDie e') :
    ∀ (n : Nat) (due : NaiveDate), ValidYMD due → rataDie c + 1 - rataDie due ≤ (n : Int) →
      ∃ o, next_due_date_fuel r c n due = some o := by
  intro n
  induction n with
  | zero =>
    intro due _ hm
    rw [next_due_date_fuel_zero, if_neg (by omega)]
    exact ⟨_, rfl⟩
  | succ n ih =>
    intro due hv hm
    rw [next_due_date_fuel_succ r hr]
    by_cases hc : rataDie due ≤ rataDie c
    · rw [if_pos hc]
      cases hstep' : stepOf r due with
      | none => exact ⟨_, rfl⟩
      | some e =>
        obtain ⟨hv', hinc⟩ := hstep due e hv hstep'
        obtain ⟨o, ho⟩ := ih e hv' (by omega)
        exact ⟨o, ho⟩
    · rw [if_neg hc]
      exact ⟨_, rfl⟩

theorem stepIterF_days (i : Nat) :
    ∀ k a d, stepIterF (stepOf (.Days i)) k a = some d → d = nextDay^[i * k] a := by
  intro k
  induction k with
  | zero =>
    intro a d h
    rw [Nat.mul_zero]
    simpa using (Option.some.inj h).symm
  | succ kk ih =>
    intro a d h
    rw [show stepIterF (stepOf (.Days i)) (kk + 1) a
        = (stepOf (.Days i) a).bind (stepIterF (stepOf (.Days i)) kk) from rfl] at h
    cases hstep : stepOf (.Days i) a with
    | none => simp [hstep] at h
    | some e =>
      rw [hstep, Option.some_bind] at h
      have hd := ih e d h
      have he : e = nextDay^[i] a := by
        have hstep2 : addDays i a = some e := hstep
        unfold addDays at hstep2
        by_cases hran : rataDie a + (i : Int) ≤ maxRataDie
        · rw [if_pos hran] at hstep2
          exact (Option.some.inj hstep2).symm
        · rw [if_neg hran] at hstep2
          simp at hstep2
      rw [hd, he, ← Function.iterate_add_apply, Nat.mul_succ]

theorem stepIterF_months (i : Nat) (h2 : i ≤ 2 ^ 31 - 12) :
    ∀ k a d, 1 ≤ a.month → a.month ≤ 12 →
      stepIterF (stepOf (.Months i)) k a = some d →
      monthIdx d = monthIdx a + i * k ∧ d.day = a.day ∧ 1 ≤ d.month ∧ d.month ≤ 12 := by
  intro k
  induction k with
  | zero =>
    intro a d h1 h12 h
    have hd := (Option.some.inj h).symm
    subst hd
    exact ⟨by push_cast; ring, rfl, h1, h12⟩
  | succ kk ih =>
    intro a d h1 h12 h
    rw [show stepIterF (stepOf (.Months i)) (kk + 1) a
        = (stepOf (.Months i) a).bind (stepIterF (stepOf (.Months i)) kk) from rfl] at h
    cases hstep : stepOf (.Months i) a with
    | none => simp [hstep] at h
    | some e =>
      rw [hstep, Option.some_bind] at h
      obtain ⟨he, _⟩ := monthStep_char i a e h1 h12 h2 hstep
      have hm1e : 1 ≤ e.month := by rw [he]; dsimp only; omega
      have hm12e : e.month ≤ 12 := by rw [he]; dsimp only; omega
      obtain ⟨hidx, hday, hb1, hb2⟩ := ih e d hm1e hm12e h
      refine ⟨?_, ?_, hb1, hb2⟩
      · have hie : monthIdx e = monthIdx a + i := by
          rw [he]
          simp only [monthIdx]
          push_cast
          omega
        rw [hidx, hie]
        push_cast
        ring
      · rw [hday, he]

theorem stepIterF_years (i : Nat) (h2 : i < 2 ^ 31) :
    ∀ k a d, stepIterF (stepOf (.Years i)) k a = some d →
      d.year = a.year + (i : Int) * k ∧ d.month = a.month ∧ d.day = a.day := by
  intro k
  induction k with
  | zero =>
    intro a d h
    have hd := (Option.some.inj h).symm
    subst hd
    exact ⟨by push_cast; ring, rfl, rfl⟩
  | succ kk ih =>
    intro a d h
    rw [show stepIterF (stepOf (.Years i)) (kk + 1) a
        = (stepOf (.Years i) a).bind (stepIterF (stepOf (.Years i)) kk) from rfl] at h
    cases hstep : stepOf (.Years i) a with
    | none => simp [hstep] at h
    | some e =>
      rw [hstep, Option.some_bind] at h
      obtain ⟨he, _⟩ := yearStep_char i a e h2 hstep
      obtain ⟨hy, hm, hd⟩ := ih e d h
      refine ⟨?_, ?_, ?_⟩
      · rw [hy, he]
        dsimp only
        push_cast
        ring
      · rw [hm, he]
      · rw [hd, he]

/-! ## Divergence and totality helpers -/

/-- With rule `Days(0)` the loop never makes progress: as long as the due
date has not passed the completion date (and stays representable), every
fuel bound is exhausted — the Rust loop spins forever. -/
theorem days_zero_loop_stuck (c : NaiveDate) (hc : rataDie c ≤ maxRataDie) :
    ∀ fuel due, rataDie due ≤ rataDie c →
      next_due_date_fuel (.Days 0) c fuel due = none := by
  intro fuel
  induction fuel with
  | zero =>
    intro due h
    rw [next_due_date_fuel_zero, if_pos h]
  | succ n ih =>
    intro due h
    rw [next_due_date_fuel_succ _ (by simp) c due n, if_pos h]
    have hstep : stepOf (.Days 0) due = some due := by
      show addDays 0 due = some due
      unfold addDays
      rw [if_pos (by omega)]
      rfl
    simp only [hstep]
    exact ih due h

/-- For a positive day count whose lattice stays representable,
`next_due_date` returns `Some`. -/
theorem days_total_retSome (a c : NaiveDate) (n : Nat) (h1 : 1 ≤ n)
    (hva : ValidYMD a) (hran : rataDie c + n ≤ maxRataDie) :
    ∃ e, NextDueDateIs a c (.Days n) (.retSome e) := by
  have hne : (Repeat.Days n) ≠ .Never := by simp
  have hstep : ∀ e e', ValidYMD e → stepOf (.Days n) e = some e' →
      ValidYMD e' ∧ rataDie e + 1 ≤ rataDie e' := by
    intro e e' hv hs
    obtain ⟨hv', heq⟩ := addDays_sound n e e' hv hs
    exact ⟨hv', by omega⟩
  obtain ⟨o, ho⟩ := next_due_total (.Days n) hne c hstep
    ((rataDie c + 1 - rataDie a).toNat) a hva (by omega)
  cases o with
  | retNone => exact absurd ho (next_due_no_retNone _ hne c _ a)
  | panicked =>
    obtain ⟨j, e, hiter, hle, hnone⟩ := next_due_panicked_reach _ hne c _ a ho
    have he := stepIterF_days n j a e hiter
    have hrd := (rataDie_iterate_nextDay a hva (n * j)).2
    rw [← he] at hrd
    have : stepOf (.Days n) e ≠ none := by
      show addDays n e ≠ none
      unfold addDays
      rw [if_pos (by omega)]
      simp
    exact absurd hnone this
  | retSome e => exact ⟨e, _, ho⟩

/-! ## Claim theorems -/

/-- C2 counterexample: the claim says `next_due_date` returns nothing for
`Never` on every anchor/completion pair, including anchors strictly after
the completion date.  But with anchor 2017-05-30 strictly after completion
2017-05-27, the `while due <= completed` loop body never runs, so the code
returns `Some(2017-05-30)` — not `None`. -/
theorem C2_counterexample :
    NextDueDateIs ⟨2017, 5, 30⟩ ⟨2017, 5, 27⟩ .Never (.retSome ⟨2017, 5, 30⟩) ∧
    ¬ NextDueDateIs ⟨2017, 5, 30⟩ ⟨2017, 5, 27⟩ .Never .retNone := by
  have h1 : NextDueDateIs ⟨2017, 5, 30⟩ ⟨2017, 5, 27⟩ .Never (.retSome ⟨2017, 5, 30⟩) :=
    ⟨0, by decide⟩
  exact ⟨h1, fun h2 => NextDueOutcome.noConfusion (NextDueDateIs_det h1 h2)⟩

/-- C2 (amended): with rule `Never`, `next_due_date(anchor, completion, Never)`
returns Rust `None` whenever `anchor ≤ completion`; when the anchor is
already strictly after the completion date the loop never runs and the
anchor itself is returned as `Some(anchor)`. -/
theorem C2_never_behaviour (a c : NaiveDate) :
    (rataDie a ≤ rataDie c → NextDueDateIs a c .Never .retNone) ∧
    (rataDie c < rataDie a → NextDueDateIs a c .Never (.retSome a)) := by
  constructor
  · intro h
    exact ⟨1, by rw [next_due_date_fuel_never_succ, if_pos h]⟩
  · intro h
    exact ⟨0, by rw [next_due_date_fuel_zero, if_neg (by omega)]⟩

/-- C2 witness: both branches of the amended claim at concrete dates. -/
theorem C2_witness :
    NextDueDateIs ⟨2017, 5, 27⟩ ⟨2017, 5, 27⟩ .Never .retNone ∧
    NextDueDateIs ⟨2017, 5, 30⟩ ⟨2017, 5, 28⟩ .Never (.retSome ⟨2017, 5, 30⟩) :=
  ⟨(C2_never_behaviour ⟨2017, 5, 27⟩ ⟨2017, 5, 27⟩).1 (by decide),
   (C2_never_behaviour ⟨2017, 5, 30⟩ ⟨2017, 5, 28⟩).2 (by decide)⟩

/-- C3: the claim (and the spec) require month/year day-of-month overflow
to be resolved by a fixed clamping rule with the error branch unreachable;
in the code the error branch is the `.expect("TODO: something???")` panic,
and it IS reachable: `next_due_date(2017-01-31, 2017-01-31, Months(1))`
builds February 31, `with_month0` returns `None`, and the `expect`
panics. -/
theorem C3_month_overflow_panics :
    NextDueDateIs ⟨2017, 1, 31⟩ ⟨2017, 1, 31⟩ (.Months 1) .panicked ∧
    monthStep 1 ⟨2017, 1, 31⟩ = none :=
  ⟨⟨1, by decide⟩, by decide⟩

/-- C6: `days_until_due(due, today)` is the pure signed day count
`due − today`: zero on equal dates, `1` against the previous day, `-1`
against the next day, and `-30` for 2017-04-27 against 2017-05-27. -/
theorem C6_days_until_due :
    (∀ d : NaiveDate, days_until_due d d = 0) ∧
    (∀ d : NaiveDate, ValidYMD d →
      days_until_due d (prevDay d) = 1 ∧ days_until_due d (nextDay d) = -1) ∧
    days_until_due ⟨2017, 4, 27⟩ ⟨2017, 5, 27⟩ = -30 := by
  refine ⟨fun d => by unfold days_until_due; ring, fun d hv => ⟨?_, ?_⟩, by decide⟩
  · unfold days_until_due
    rw [rataDie_prevDay d hv]
    ring
  · unfold days_until_due
    rw [rataDie_nextDay d hv]
    ring

/-- C6 witness: the sign convention at 2017-05-27 (matching the unit
tests: one day before gives 1, one day after gives -1). -/
theorem C6_witness :
    days_until_due ⟨2017, 5, 27⟩ ⟨2017, 5, 27⟩ = 0 ∧
    days_until_due ⟨2017, 5, 27⟩ (prevDay ⟨2017, 5, 27⟩) = 1 ∧
    days_until_due ⟨2017, 5, 27⟩ (nextDay ⟨2017, 5, 27⟩) = -1 :=
  ⟨C6_days_until_due.1 ⟨2017, 5, 27⟩,
   (C6_days_until_due.2.1 ⟨2017, 5, 27⟩ (by decide)).1,
   (C6_days_until_due.2.1 ⟨2017, 5, 27⟩ (by decide)).2⟩

/-- C10: `repeat_from_string` accepts zero counts — `"0d"`, `"0m"`,
`"0y"` parse to `Days(0)`, `Months(0)`, `Years(0)`; zero is never rejected
even though the data model describes counts as positive. -/
theorem C10_zero_counts :
    repeat_from_string ['0', 'd'] = some (.ok (.Days 0)) ∧
    repeat_from_string ['0', 'm'] = some (.ok (.Months 0)) ∧
    repeat_from_string ['0', 'y'] = some (.ok (.Years 0)) :=
  ⟨rfl, rfl, rfl⟩

/-- C9 counterexample: the claim asserts termination for every repeat
rule, but with `Days(0)` (a value `repeat_from_string("0d")` produces) and
anchor = completion = 2017-05-27 the loop adds zero days forever and never
terminates. -/
theorem C9_counterexample :
    ¬ NextDueTerminates ⟨2017, 5, 27⟩ ⟨2017, 5, 27⟩ (.Days 0) := by
  rintro ⟨o, fuel, h⟩
  rw [days_zero_loop_stuck ⟨2017, 5, 27⟩ (by decide) fuel ⟨2017, 5, 27⟩ (by decide)] at h
  exact Option.noConfusion h

/-- C9 (amended): the loop terminates for `Never` and for every rule with
a positive count below the `u32 as i32` wrap (`Days` with any positive
count), with the iteration count bounded by the day distance from anchor
to completion: that much fuel always produces an outcome (possibly the
panic outcome, which also terminates the loop). -/
theorem C9_amended_termination (a c : NaiveDate) (r : Repeat) (hv : ValidYMD a)
    (hok : CountOk r) :
    ∃ o, next_due_date_fuel r c ((rataDie c + 1 - rataDie a).toNat) a = some o := by
  cases r with
  | Never =>
    by_cases hc : rataDie a ≤ rataDie c
    · rcases hn : (rataDie c + 1 - rataDie a).toNat with _ | m
      · omega
      · rw [next_due_date_fuel_never_succ, if_pos hc]
        exact ⟨.retNone, rfl⟩
    · cases hn : (rataDie c + 1 - rataDie a).toNat with
      | zero =>
        rw [next_due_date_fuel_zero, if_neg hc]
        exact ⟨_, rfl⟩
      | succ m =>
        rw [next_due_date_fuel_never_succ, if_neg hc]
        exact ⟨_, rfl⟩
  | Days i =>
    refine next_due_total _ (by simp) c ?_ _ a hv (by omega)
    intro e e' hve hs
    obtain ⟨hv', heq⟩ := addDays_sound i e e' hve hs
    have hone : (1 : Nat) ≤ i := hok
    exact ⟨hv', by omega⟩
  | Months i =>
    refine next_due_total _ (by simp) c ?_ _ a hv (by omega)
    intro e e' hve hs
    exact monthStep_sound i e e' hve hok.1 hok.2 hs
  | Years i =>
    refine next_due_total _ (by simp) c ?_ _ a hv (by omega)
    intro e e' hve hs
    exact yearStep_sound i e e' hve hok.1 hok.2 hs

/-- C9 witness: termination at the spec's catch-up example
(anchor 2017-05-27, completion 2017-05-30, `Days(3)`). -/
theorem C9_witness :
    ∃ o, next_due_date_fuel (.Days 3) ⟨2017, 5, 30⟩
      ((rataDie ⟨2017, 5, 30⟩ + 1 - rataDie ⟨2017, 5, 27⟩).toNat) ⟨2017, 5, 27⟩ = some o :=
  C9_amended_termination ⟨2017, 5, 27⟩ ⟨2017, 5, 30⟩ (.Days 3) (by decide)
    (by simp [CountOk])

/-- C5 counterexample: the claim says `next_due_date(d, d, r)` returns a
date strictly after `d` for every non-`Never` rule with positive count;
but for d = 2020-02-29 and `Years(1)` the code builds February 29, 2021,
`with_year` returns `None`, and the `expect` panics — no date at all is
returned. -/
theorem C5_counterexample :
    NextDueDateIs ⟨2020, 2, 29⟩ ⟨2020, 2, 29⟩ (.Years 1) .panicked ∧
    ¬ NextDueProducesSome ⟨2020, 2, 29⟩ ⟨2020, 2, 29⟩ (.Years 1) := by
  have h1 : NextDueDateIs ⟨2020, 2, 29⟩ ⟨2020, 2, 29⟩ (.Years 1) .panicked :=
    ⟨1, by decide⟩
  refine ⟨h1, ?_⟩
  rintro ⟨e, h2⟩
  exact NextDueOutcome.noConfusion (NextDueDateIs_det h1 h2)

/-- C5 (amended): whenever `next_due_date(d, d, r)` with `r ≠ Never` does
return a date it is strictly after `d`; for `Days(n)` with `n ≥ 1` (and
the result representable) a date is always returned; and the two concrete
scenarios of the spec hold: `Days(1)` from 2017-05-27 gives 2017-05-28 and
`Months(14)` gives 2018-07-27. -/
theorem C5_strictly_after (d : NaiveDate) (r : Repeat) (hr : r ≠ .Never) :
    (∀ e, NextDueDateIs d d r (.retSome e) → rataDie d < rataDie e) ∧
    (∀ n : Nat, 1 ≤ n → ValidYMD d → rataDie d + (n : Int) ≤ maxRataDie →
      ∃ e, NextDueDateIs d d (.Days n) (.retSome e) ∧ rataDie d < rataDie e) ∧
    NextDueDateIs ⟨2017, 5, 27⟩ ⟨2017, 5, 27⟩ (.Days 1) (.retSome ⟨2017, 5, 28⟩) ∧
    NextDueDateIs ⟨2017, 5, 27⟩ ⟨2017, 5, 27⟩ (.Months 14) (.retSome ⟨2018, 7, 27⟩) := by
  refine ⟨?_, ?_, ⟨2, by decide⟩, ⟨2, by decide⟩⟩
  · intro e he
    obtain ⟨fuel, hf⟩ := he
    obtain ⟨k, _, hlt, _⟩ := next_due_retSome_lattice r hr d fuel d e hf
    exact hlt
  · intro n h1 hv hran
    obtain ⟨e, he⟩ := days_total_retSome d d n h1 hv hran
    refine ⟨e, he, ?_⟩
    obtain ⟨fuel, hf⟩ := he
    obtain ⟨k, _, hlt, _⟩ := next_due_retSome_lattice _ (by simp) d fuel d e hf
    exact hlt

/-- C5 witness: the strictly-after part applied to the concrete `Days(1)`
run from 2017-05-27. -/
theorem C5_witness :
    rataDie ⟨2017, 5, 27⟩ < rataDie ⟨2017, 5, 28⟩ ∧
    NextDueDateIs ⟨2017, 5, 27⟩ ⟨2017, 5, 27⟩ (.Days 1) (.retSome ⟨2017, 5, 28⟩) := by
  have h := C5_strictly_after ⟨2017, 5, 27⟩ (.Days 1) (by simp)
  exact ⟨h.1 ⟨2017, 5, 28⟩ h.2.2.1, h.2.2.1⟩

/-- C1 counterexample: the claim promises `Some(first lattice point)` for
every anchor/completion and every positive `Days`/`Months`/`Years` count,
but `next_due_date(2017-05-31, 2017-05-31, Months(1))` attempts June 31,
`with_month0` returns `None`, and the code panics instead of returning
`Some` of anything. -/
theorem C1_counterexample :
    NextDueDateIs ⟨2017, 5, 31⟩ ⟨2017, 5, 31⟩ (.Months 1) .panicked ∧
    ¬ NextDueProducesSome ⟨2017, 5, 31⟩ ⟨2017, 5, 31⟩ (.Months 1) := by
  have h1 : NextDueDateIs ⟨2017, 5, 31⟩ ⟨2017, 5, 31⟩ (.Months 1) .panicked :=
    ⟨1, by decide⟩
  refine ⟨h1, ?_⟩
  rintro ⟨e, h2⟩
  exact NextDueOutcome.noConfusion (NextDueDateIs_det h1 h2)

/-- C1 (amended): for non-`Never` rules, (1) an anchor already strictly
after the completion date is returned unchanged; (2) whenever the loop
returns a date it is the first point of the recurrence lattice anchored at
`a` (iterated rule advance) strictly after the completion date — every
earlier lattice point is ≤ the completion date, so a completion delayed by
exactly one interval advances the result by exactly one interval; (3) for
`Days(n)`, `n ≥ 1`, with the lattice representable, the result exists and
is `a + (n·k) days` for the least such `k`; (4)/(5) the `Months(i)` /
`Years(i)` lattice advances the month index by `i` (resp. the year by `i`)
per step, keeping the day-of-month — except that the code panics instead
of returning when an advance lands on a nonexistent day (see the
counterexample). -/
theorem C1_first_lattice_point (a c : NaiveDate) (r : Repeat) (hr : r ≠ .Never) :
    (rataDie c < rataDie a → NextDueDateIs a c r (.retSome a)) ∧
    (∀ d, NextDueDateIs a c r (.retSome d) →
      ∃ k, stepIterF (stepOf r) k a = some d ∧ rataDie c < rataDie d ∧
        ∀ j, j < k → ∃ e, stepIterF (stepOf r) j a = some e ∧ rataDie e ≤ rataDie c) ∧
    (∀ n, r = .Days n → 1 ≤ n → ValidYMD a → rataDie c + n ≤ maxRataDie →
      ∃ k, NextDueDateIs a c r (.retSome (nextDay^[n * k] a)) ∧
        rataDie c < rataDie a + (n * k : Nat) ∧
        ∀ j, j < k → rataDie a + (n * j : Nat) ≤ rataDie c) ∧
    (∀ i k d, r = .Months i → i ≤ 2 ^ 31 - 12 → 1 ≤ a.month → a.month ≤ 12 →
      stepIterF (stepOf r) k a = some d →
        monthIdx d = monthIdx a + i * k ∧ d.day = a.day) ∧
    (∀ i k d, r = .Years i → i < 2 ^ 31 →
      stepIterF (stepOf r) k a = some d →
        d.year = a.year + (i : Int) * k ∧ d.month = a.month ∧ d.day = a.day) := by
  refine ⟨?_, ?_, ?_, ?_, ?_⟩
  · intro h
    exact ⟨0, by rw [next_due_date_fuel_zero, if_neg (by omega)]⟩
  · intro d hd
    obtain ⟨fuel, hf⟩ := hd
    exact next_due_retSome_lattice r hr c fuel a d hf
  · intro n hrn h1 hv hran
    subst hrn
    obtain ⟨e, he⟩ := days_total_retSome a c n h1 hv hran
    obtain ⟨fuel, hf⟩ := he
    obtain ⟨k, hk1, hk2, hk3⟩ := next_due_retSome_lattice _ hr c fuel a e hf
    have hedef := stepIterF_days n k a e hk1
    subst hedef
    refine ⟨k, ⟨fuel, hf⟩, ?_, ?_⟩
    · have := (rataDie_iterate_nextDay a hv (n * k)).2
      omega
    · intro j hj
      obtain ⟨e', he1, he2⟩ := hk3 j hj
      have hej := stepIterF_days n j a e' he1
      subst hej
      have := (rataDie_iterate_nextDay a hv (n * j)).2
      omega
  · intro i k d hri h2 hm1 hm2 hit
    subst hri
    obtain ⟨hidx, hday, _, _⟩ := stepIterF_months i h2 k a d hm1 hm2 hit
    exact ⟨hidx, hday⟩
  · intro i k d hri h2 hit
    subst hri
    exact stepIterF_years i h2 k a d hit

/-- C1 witness: the early-completion case returns the anchor
(2017-05-30 against completion 2017-05-27, `Days(1)`), and the
`Months(14)` lattice step from 2017-05-27 lands on 2018-07-27 (month
index advanced by 14, day kept). -/
theorem C1_witness :
    NextDueDateIs ⟨2017, 5, 30⟩ ⟨2017, 5, 27⟩ (.Days 1) (.retSome ⟨2017, 5, 30⟩) ∧
    monthIdx ⟨2018, 7, 27⟩ = monthIdx ⟨2017, 5, 27⟩ + 14 * 1 ∧
    (⟨2018, 7, 27⟩ : NaiveDate).day = (⟨2017, 5, 27⟩ : NaiveDate).day := by
  have h1 := (C1_first_lattice_point ⟨2017, 5, 30⟩ ⟨2017, 5, 27⟩ (.Days 1) (by simp)).1
    (by decide)
  have h4 := (C1_first_lattice_point ⟨2017, 5, 27⟩ ⟨2017, 5, 30⟩ (.Months 14)
    (by simp)).2.2.2.1 14 1 ⟨2018, 7, 27⟩ rfl (by norm_num) (by norm_num) (by norm_num)
    (by decide)
  exact ⟨h1, h4.1, h4.2⟩

/-! ## `repeat_from_string` lemmas -/

theorem take_len_sub_one (body : List Char) (u : Char) :
    (body ++ [u]).take ((body ++ [u]).length - 1) = body := by
  have h : (body ++ [u]).length - 1 = body.length := by simp
  rw [h]
  exact List.take_left body [u]

theorem drop_len_sub_one (body : List Char) (u : Char) :
    (body ++ [u]).drop ((body ++ [u]).length - 1) = [u] := by
  have h : (body ++ [u]).length - 1 = body.length := by simp
  rw [h]
  exact List.drop_left body [u]

theorem append_singleton_ne_never (body : List Char) (u : Char) (hu : u ≠ 'r') :
    body ++ [u] ≠ neverChars := by
  intro h
  have h5 : body ++ [u] = ['n', 'e', 'v', 'e'] ++ ['r'] := h
  have hlen : body.length = (['n', 'e', 'v', 'e'] : List Char).length := by
    have := congrArg List.length h5
    simp at this
    simp [this]
  exact hu (List.singleton_injective (List.append_inj_right h5 hlen))

/-- C7 counterexample: the claim says `repeat_from_string` never panics,
but it panics on two families of input: on the empty string
`string.len() - 1` underflows, and on `"5é"` the byte index `len - 1`
falls inside the two-byte final character `é`, so `split_at` panics on a
char-boundary violation.  Both panics are modelled as `none`. -/
theorem C7_counterexample :
    repeat_from_string [] = none ∧ repeat_from_string ['5', 'é'] = none :=
  ⟨rfl, rfl⟩

/-- C7 (amended): on every non-empty input whose final character is a
single UTF-8 byte (scalar value < 128 — in particular every ASCII
input), `repeat_from_string` returns without panicking, and it returns
`Ok(r)` exactly for the grammar the claim describes: `"never"` ↦
`Never`, or a `u32` literal followed by unit letter `d`/`m`/`y` ↦ the
corresponding rule; everything else is an `Err` value.  On the empty
string, and on inputs ending in a multi-byte character, `split_at`
panics (see the counterexample). -/
theorem C7_amended (s : List Char) (hs : s ≠ [])
    (hu : (s.getLast?.getD ' ').toNat < 128) :
    (repeat_from_string s).isSome ∧
    ∀ r', repeat_from_string s = some (.ok r') ↔ GrammarOk s r' := by
  have h2 : ¬ s.length = 0 := by simpa using hs
  have h3 : ¬ 128 ≤ (s.getLast?.getD ' ').toNat := by omega
  constructor
  · by_cases h1 : s = neverChars
    · simp [repeat_from_string, h1]
    · simp only [repeat_from_string, if_neg h1, if_neg h2, if_neg h3]
      cases hp : parseU32 (s.take (s.length - 1)) with
      | none => rfl
      | some c => split_ifs <;> rfl
  · intro r'
    constructor
    · intro h
      by_cases h1 : s = neverChars
      · rw [h1] at h
        simp only [repeat_from_string, if_pos rfl] at h
        have hr := Except.ok.inj (Option.some.inj h)
        exact Or.inl ⟨h1, hr.symm⟩
      · simp only [repeat_from_string, if_neg h1, if_neg h2, if_neg h3] at h
        have hsplit : s.take (s.length - 1) ++ s.drop (s.length - 1) = s :=
          List.take_append_drop _ s
        cases hp : parseU32 (s.take (s.length - 1)) with
        | none =>
          simp only [hp] at h
          simp at h
        | some n =>
          simp only [hp] at h
          split_ifs at h with hd hm hy
          · have hinj := Except.ok.inj (Option.some.inj h)
            refine Or.inr ⟨s.take (s.length - 1), n, hp, Or.inl ⟨?_, hinj.symm⟩⟩
            conv_lhs => rw [← hsplit]
            rw [hd]
          · have hinj := Except.ok.inj (Option.some.inj h)
            refine Or.inr ⟨s.take (s.length - 1), n, hp,
              Or.inr (Or.inl ⟨?_, hinj.symm⟩)⟩
            conv_lhs => rw [← hsplit]
            rw [hm]
          · have hinj := Except.ok.inj (Option.some.inj h)
            refine Or.inr ⟨s.take (s.length - 1), n, hp,
              Or.inr (Or.inr ⟨?_, hinj.symm⟩)⟩
            conv_lhs => rw [← hsplit]
            rw [hy]
          · simp at h
    · intro hg
      rcases hg with ⟨h1, hr⟩ | ⟨body, n, hp, hcase⟩
      · subst h1
        subst hr
        rfl
      · rcases hcase with ⟨hs', hr'⟩ | ⟨hs', hr'⟩ | ⟨hs', hr'⟩
        · subst hs'
          subst hr'
          have hne := append_singleton_ne_never body 'd' (by decide)
          have hlen : ¬ (body ++ ['d']).length = 0 := by simp
          have hlast : (body ++ ['d']).getLast?.getD ' ' = 'd' := by simp
          have hbnd : ¬ 128 ≤ ((body ++ ['d']).getLast?.getD ' ').toNat := by
            rw [hlast]
            decide
          simp only [repeat_from_string, if_neg hne, if_neg hlen, if_neg hbnd,
            take_len_sub_one, drop_len_sub_one, hp]
          simp
        · subst hs'
          subst hr'
          have hne := append_singleton_ne_never body 'm' (by decide)
          have hlen : ¬ (body ++ ['m']).length = 0 := by simp
          have hlast : (body ++ ['m']).getLast?.getD ' ' = 'm' := by simp
          have hbnd : ¬ 128 ≤ ((body ++ ['m']).getLast?.getD ' ').toNat := by
            rw [hlast]
            decide
          simp only [repeat_from_string, if_neg hne, if_neg hlen, if_neg hbnd,
            take_len_sub_one, drop_len_sub_one, hp]
          simp
        · subst hs'
          subst hr'
          have hne := append_singleton_ne_never body 'y' (by decide)
          have hlen : ¬ (body ++ ['y']).length = 0 := by simp
          have hlast : (body ++ ['y']).getLast?.getD ' ' = 'y' := by simp
          have hbnd : ¬ 128 ≤ ((body ++ ['y']).getLast?.getD ' ').toNat := by
            rw [hlast]
            decide
          simp only [repeat_from_string, if_neg hne, if_neg hlen, if_neg hbnd,
            take_len_sub_one, drop_len_sub_one, hp]
          simp

/-- C7 witness: the amended theorem at `"5d"` (ASCII final character): no
panic, and `"5d"` parses to `Days(5)` because it lies in the grammar. -/
theorem C7_witness :
    (repeat_from_string ['5', 'd']).isSome ∧
    repeat_from_string ['5', 'd'] = some (.ok (.Days 5)) := by
  have h := C7_amended ['5', 'd'] (by simp) (by decide)
  exact ⟨h.1, (h.2 (.Days 5)).mpr (Or.inr ⟨['5'], 5, by rfl, Or.inl ⟨rfl, rfl⟩⟩)⟩

/-! ## Decimal digit lemmas (for the `Date` round-trip) -/

theorem digitChar_toNat (d : Nat) (h : d < 10) : (digitChar d).toNat = 48 + d := by
  interval_cases d <;> decide

theorem digitChar_isDigit (d : Nat) (h : d < 10) : (digitChar d).isDigit = true := by
  interval_cases d <;> decide

theorem natCharsRev_foldl (fuel : Nat) :
    ∀ n, n ≤ fuel → ∀ acc,
      List.foldl (fun a c => 10 * a + (c.toNat - 48)) acc (natCharsRev fuel n).reverse
        = acc * 10 ^ (natCharsRev fuel n).length + n := by
  induction fuel with
  | zero =>
    intro n hn acc
    have h0 : n = 0 := by omega
    subst h0
    simp [natCharsRev]
  | succ f ih =>
    intro n hn acc
    by_cases h0 : n = 0
    · subst h0
      simp [natCharsRev]
    · rw [natCharsRev, if_neg h0, List.reverse_cons, List.foldl_append,
        ih (n / 10) (by omega) acc]
      simp only [List.foldl_cons, List.foldl_nil, List.length_cons]
      rw [digitChar_toNat (n % 10) (by omega)]
      have hmod : 10 * (n / 10) + (48 + n % 10 - 48) = n := by omega
      calc 10 * (acc * 10 ^ (natCharsRev f (n / 10)).length + n / 10)
            + (48 + n % 10 - 48)
          = acc * (10 ^ (natCharsRev f (n / 10)).length * 10)
            + (10 * (n / 10) + (48 + n % 10 - 48)) := by ring
        _ = acc * 10 ^ ((natCharsRev f (n / 10)).length + 1) + n := by
            rw [hmod, pow_succ]

theorem natCharsRev_all_digits (fuel : Nat) :
    ∀ n, (natCharsRev fuel n).all Char.isDigit = true := by
  induction fuel with
  | zero => intro n; rfl
  | succ f ih =>
    intro n
    rw [natCharsRev]
    by_cases h0 : n = 0
    · rw [if_pos h0]
      rfl
    · rw [if_neg h0]
      simp only [List.all_cons, Bool.and_eq_true]
      exact ⟨digitChar_isDigit (n % 10) (by omega), ih (n / 10)⟩

theorem natCharsRev_length_le (fuel : Nat) :
    ∀ k n, n < 10 ^ k → (natCharsRev fuel n).length ≤ k := by
  induction fuel with
  | zero => intro k n _; simp [natCharsRev]
  | succ f ih =>
    intro k n h
    rw [natCharsRev]
    by_cases h0 : n = 0
    · simp [h0]
    · rw [if_neg h0]
      cases k with
      | zero => simp at h; omega
      | succ kk =>
        simp only [List.length_cons]
        have hdiv : n / 10 < 10 ^ kk := by
          rw [pow_succ] at h
          omega
        have := ih kk (n / 10) hdiv
        omega

theorem natChars_ne_nil (n : Nat) (h : 1 ≤ n) : natChars n ≠ [] := by
  unfold natChars
  cases n with
  | zero => omega
  | succ m =>
    rw [natCharsRev, if_neg (by omega)]
    simp

theorem natChars_all_digits (n : Nat) : (natChars n).all Char.isDigit = true := by
  unfold natChars
  simp only [List.all_reverse]
  exact natCharsRev_all_digits n n

theorem natChars_length_le (k n : Nat) (h : n < 10 ^ k) : (natChars n).length ≤ k := by
  unfold natChars
  rw [List.length_reverse]
  exact natCharsRev_length_le n k n h

theorem foldl_replicate_zero (k : Nat) (cs : List Char) :
    List.foldl (fun a c => 10 * a + (c.toNat - 48)) 0 (List.replicate k '0' ++ cs)
      = List.foldl (fun a c => 10 * a + (c.toNat - 48)) 0 cs := by
  induction k with
  | zero => rfl
  | succ kk ih =>
    simp only [List.replicate_succ, List.cons_append, List.foldl_cons]
    have h0 : 10 * 0 + ('0'.toNat - 48) = 0 := by decide
    rw [h0]
    exact ih

theorem natOfChars_padZero (k n : Nat) : natOfChars (padZero k (natChars n)) = n := by
  unfold natOfChars padZero
  rw [foldl_replicate_zero]
  show List.foldl _ 0 (natCharsRev n n).reverse = n
  rw [natCharsRev_foldl n n (le_refl n) 0]
  simp

theorem padZero_length (k : Nat) (cs : List Char) (h : cs.length ≤ k) :
    (padZero k cs).length = k := by
  simp [padZero]
  omega

theorem padZero_ne_nil (k : Nat) (cs : List Char) (h : 1 ≤ k) : padZero k cs ≠ [] := by
  intro he
  have hlen := congrArg List.length he
  rw [padZero, List.length_append, List.length_replicate, List.length_nil] at hlen
  omega

theorem padZero_all_digits (k : Nat) (cs : List Char) (h : cs.all Char.isDigit = true) :
    ∀ c ∈ padZero k cs, c.isDigit = true := by
  intro c hc
  simp only [padZero, List.mem_append, List.mem_replicate] at hc
  rcases hc with ⟨_, rfl⟩ | hc
  · decide
  · exact List.all_eq_true.mp h c hc

theorem splitDigits_exact :
    ∀ (ds rest : List Char) (limit : Nat),
      (∀ c ∈ ds, c.isDigit = true) → ds.length ≤ limit →
      (∀ c, rest.head? = some c → c.isDigit = false) →
      splitDigits limit (ds ++ rest) = (ds, rest) := by
  intro ds
  induction ds with
  | nil =>
    intro rest limit _ _ hrest
    cases limit with
    | zero => rfl
    | succ l =>
      cases rest with
      | nil => rfl
      | cons c t =>
        have hc := hrest c rfl
        show splitDigits (l + 1) (c :: t) = ([], c :: t)
        rw [splitDigits, if_neg (by simp [hc])]
  | cons d ds' ih =>
    intro rest limit hdig hlen hrest
    cases limit with
    | zero => simp at hlen
    | succ l =>
      show splitDigits (l + 1) (d :: (ds' ++ rest)) = (d :: ds', rest)
      rw [splitDigits, if_pos (by simp [hdig d (List.mem_cons_self d ds')])]
      rw [ih rest l (fun c hc => hdig c (List.mem_cons_of_mem _ hc))
        (by simpa using hlen) hrest]

theorem parseDateBody_canonical (sgn : Int) (ylimit : Nat) (yds mds dds : List Char)
    (hy0 : yds ≠ []) (hy1 : ∀ c ∈ yds, c.isDigit = true) (hy2 : yds.length ≤ ylimit)
    (hm0 : mds ≠ []) (hm1 : ∀ c ∈ mds, c.isDigit = true) (hm2 : mds.length ≤ 2)
    (hd0 : dds ≠ []) (hd1 : ∀ c ∈ dds, c.isDigit = true) (hd2 : dds.length ≤ 2) :
    parseDateBody sgn ylimit (yds ++ '-' :: (mds ++ '-' :: dds)) =
      if ChronoValid ⟨sgn * (natOfChars yds : Int), natOfChars mds, natOfChars dds⟩ then
        some ⟨sgn * (natOfChars yds : Int), natOfChars mds, natOfChars dds⟩
      else none := by
  have hdash : ∀ (tl : List Char) (c : Char),
      (('-' : Char) :: tl).head? = some c → c.isDigit = false := by
    intro tl c hc
    simp at hc
    subst hc
    decide
  have hnil : ∀ c : Char, ([] : List Char).head? = some c → c.isDigit = false := by
    intro c hc
    simp at hc
  unfold parseDateBody
  rw [splitDigits_exact yds ('-' :: (mds ++ '-' :: dds)) ylimit hy1 hy2 (hdash _)]
  simp only [if_neg hy0]
  rw [splitDigits_exact mds ('-' :: dds) 2 hm1 hm2 (hdash _)]
  simp only [if_neg hm0]
  have h3 : splitDigits 2 dds = (dds, []) := by
    have := splitDigits_exact dds [] 2 hd1 hd2 hnil
    rwa [List.append_nil] at this
  rw [h3]
  dsimp only
  rw [if_pos ⟨hd0, rfl⟩]

theorem isDigit_ne_plus {c : Char} (h : c.isDigit = true) : ¬ c = '+' := by
  intro he
  subst he
  exact absurd h (by decide)

theorem isDigit_ne_minus {c : Char} (h : c.isDigit = true) : ¬ c = '-' := by
  intro he
  subst he
  exact absurd h (by decide)

theorem head_digit (cs : List Char) (h : cs ≠ []) (hall : ∀ x ∈ cs, x.isDigit = true) :
    ∃ c t, cs = c :: t ∧ c.isDigit = true := by
  cases cs with
  | nil => exact absurd rfl h
  | cons c t => exact ⟨c, t, rfl, hall c (List.mem_cons_self c t)⟩

theorem parseDate_digit_head (c : Char) (t : List Char) (hc : c.isDigit = true) :
    parseDate (c :: t) = parseDateBody 1 4 (c :: t) := by
  simp only [parseDate, if_neg (isDigit_ne_plus hc), if_neg (isDigit_ne_minus hc)]

theorem daysInMonth_le (y : Int) (m : Nat) : daysInMonth y m ≤ 31 := by
  unfold daysInMonth
  split <;> first | omega | (split <;> omega)

theorem parseDateBody_format (sgn : Int) (ylimit : Nat) (yds : List Char) (d : NaiveDate)
    (hy0 : yds ≠ []) (hy1 : ∀ c ∈ yds, c.isDigit = true) (hy2 : yds.length ≤ ylimit)
    (hyval : sgn * (natOfChars yds : Int) = d.year)
    (hmlt : d.month < 10 ^ 2) (hdlt : d.day < 10 ^ 2)
    (hch : ChronoValid d) :
    parseDateBody sgn ylimit
      (yds ++ '-' :: (padZero 2 (natChars d.month) ++ '-' :: padZero 2 (natChars d.day)))
      = some d := by
  rw [parseDateBody_canonical sgn ylimit yds _ _ hy0 hy1 hy2
    (padZero_ne_nil 2 _ (by omega)) (padZero_all_digits 2 _ (natChars_all_digits _))
    (le_of_eq (padZero_length 2 _ (natChars_length_le 2 _ hmlt)))
    (padZero_ne_nil 2 _ (by omega)) (padZero_all_digits 2 _ (natChars_all_digits _))
    (le_of_eq (padZero_length 2 _ (natChars_length_le 2 _ hdlt)))]
  rw [natOfChars_padZero, natOfChars_padZero, hyval]
  rw [if_pos hch]

/-- Chrono `Date` round-trip: formatting any representable date and
parsing it back is the identity. -/
theorem parseDate_formatDate (d : NaiveDate) (h : ChronoValid d) :
    parseDate (formatDate d) = some d := by
  have hmlt : d.month < 10 ^ 2 := by have := h.1.2.1; omega
  have hdlt : d.day < 10 ^ 2 := by
    have h31 := le_trans h.1.2.2.2 (daysInMonth_le d.year d.month)
    omega
  by_cases hA : 0 ≤ d.year ∧ d.year ≤ 9999
  · have hfy : formatYear d.year = padZero 4 (natChars d.year.toNat) := by
      unfold formatYear
      rw [if_pos hA]
    have hY0 : padZero 4 (natChars d.year.toNat) ≠ [] := padZero_ne_nil 4 _ (by omega)
    have hY1 : ∀ c ∈ padZero 4 (natChars d.year.toNat), c.isDigit = true :=
      padZero_all_digits 4 _ (natChars_all_digits _)
    have hY2 : (padZero 4 (natChars d.year.toNat)).length ≤ 4 :=
      le_of_eq (padZero_length 4 _ (natChars_length_le 4 _ (by omega)))
    obtain ⟨yc, yt, hcons, hycd⟩ := head_digit _ hY0 hY1
    have hfd : formatDate d = padZero 4 (natChars d.year.toNat)
        ++ '-' :: (padZero 2 (natChars d.month) ++ '-' :: padZero 2 (natChars d.day)) := by
      unfold formatDate
      rw [hfy]
    rw [hfd, hcons, List.cons_append, parseDate_digit_head yc _ hycd,
      ← List.cons_append, ← hcons]
    rw [parseDateBody_format 1 4 _ d hY0 hY1 hY2
      (by rw [natOfChars_padZero]; omega) hmlt hdlt h]
  · by_cases hB : d.year < 0
    · have hfy : formatYear d.year = '-' :: padZero 4 (natChars d.year.natAbs) := by
        unfold formatYear
        rw [if_neg hA, if_pos hB]
      have hfd : formatDate d = '-' :: (padZero 4 (natChars d.year.natAbs)
          ++ '-' :: (padZero 2 (natChars d.month) ++ '-' :: padZero 2 (natChars d.day))) := by
        unfold formatDate
        rw [hfy]
        rfl
      rw [hfd]
      simp only [parseDate, if_neg (by decide : ¬ ('-' : Char) = '+'), if_pos rfl]
      rw [parseDateBody_format (-1) _ _ d (padZero_ne_nil 4 _ (by omega))
        (padZero_all_digits 4 _ (natChars_all_digits _)) (by simp)
        (by rw [natOfChars_padZero]; omega) hmlt hdlt h]
      simp
    · have hfy : formatYear d.year = '+' :: padZero 4 (natChars d.year.natAbs) := by
        unfold formatYear
        rw [if_neg hA, if_neg hB]
      have hfd : formatDate d = '+' :: (padZero 4 (natChars d.year.natAbs)
          ++ '-' :: (padZero 2 (natChars d.month) ++ '-' :: padZero 2 (natChars d.day))) := by
        unfold formatDate
        rw [hfy]
        rfl
      rw [hfd]
      simp only [parseDate, if_pos rfl]
      rw [parseDateBody_format 1 _ _ d (padZero_ne_nil 4 _ (by omega))
        (padZero_all_digits 4 _ (natChars_all_digits _)) (by simp)
        (by rw [natOfChars_padZero]; omega) hmlt hdlt h]
      simp

/-- C8: serializing a representable calendar date (`Date::from`) and
parsing it back (`Date::as_naive`) is the identity, and parsing invalid
text (a nonexistent calendar day, or non-date text) fails with `None`
rather than defaulting. -/
theorem C8_date_roundtrip :
    (∀ d : NaiveDate, ChronoValid d → (dateFromNaive d).as_naive = some d) ∧
    parseDate ['2', '0', '2', '0', '-', '0', '2', '-', '3', '0'] = none ∧
    parseDate ['h', 'i'] = none := by
  refine ⟨fun d hd => ?_, by decide, by decide⟩
  show parseDate (formatDate d) = some d
  exact parseDate_formatDate d hd

/-- C8 witness: the round trip at 2020-01-08 (and at a negative-year date,
exercising the signed year form). -/
theorem C8_witness :
    (dateFromNaive ⟨2020, 1, 8⟩).as_naive = some ⟨2020, 1, 8⟩ ∧
    (dateFromNaive ⟨-44, 3, 15⟩).as_naive = some ⟨-44, 3, 15⟩ :=
  ⟨C8_date_roundtrip.1 ⟨2020, 1, 8⟩ (by decide),
   C8_date_roundtrip.1 ⟨-44, 3, 15⟩ (by decide)⟩

/-- C4 counterexample: the claim quantifies over every legacy record with
a parseable `last_completed`, but a record with `frequency_days = 0`
(expressible in a stored file) makes `next_due_date(lc, lc, Days(0))`
loop forever, so the upgrade neither produces a task nor drops the
record — it produces nothing at all. -/
theorem C4_counterexample :
    ¬ UpProduces ⟨2021, 6, 15⟩ (.Version010 ⟨['X'], 0,
      some ⟨['2', '0', '2', '0', '-', '0', '1', '-', '0', '1']⟩⟩) := by
  rintro ⟨res, hres⟩
  have hdiv : ∀ o, ¬ NextDueDateIs ⟨2020, 1, 1⟩ ⟨2020, 1, 1⟩ (.Days 0) o := by
    rintro o ⟨fuel, hf⟩
    rw [days_zero_loop_stuck ⟨2020, 1, 1⟩ (by decide) fuel ⟨2020, 1, 1⟩ (by decide)] at hf
    exact Option.noConfusion hf
  have hres' : (∃ dd, NextDueDateIs ⟨2020, 1, 1⟩ ⟨2020, 1, 1⟩ (.Days 0) (.retSome dd) ∧
      res = .task ⟨['X'], some (dateFromNaive ⟨2020, 1, 1⟩), dateFromNaive dd,
        .Days 0, false⟩)
      ∨ (NextDueDateIs ⟨2020, 1, 1⟩ ⟨2020, 1, 1⟩ (.Days 0) .retNone ∧ res = .dropped)
      ∨ (NextDueDateIs ⟨2020, 1, 1⟩ ⟨2020, 1, 1⟩ (.Days 0) .panicked ∧
        res = .panicked) := hres
  rcases hres' with ⟨dd, hn, _⟩ | ⟨hn, _⟩ | ⟨hn, _⟩
  · exact hdiv _ hn
  · exact hdiv _ hn
  · exact hdiv _ hn

/-- C4 (amended): for a legacy record whose `last_completed` parses to `d`
and whose recurrence computation `next_due_date(d, d, Days(frequency_days))`
terminates with a date `dd` (in particular whenever `frequency_days ≥ 1`
and the dates stay in range), the upgrade produces a task with the same
name, `date_completed = d` (re-serialized), `date_due = dd`,
`repeat = Days(frequency_days)` and `at_least = false`.  (A record whose
computation diverges — count 0 — is neither produced nor dropped, see the
counterexample; `Days` rules never yield Rust `None`, so the drop branch
is unreachable for parseable records.) -/
theorem C4_upgrade (today : NaiveDate) (name : List Char) (f : Nat) (lc : Date)
    (d dd : NaiveDate) (hparse : lc.as_naive = some d)
    (hnext : NextDueDateIs d d (.Days f) (.retSome dd)) :
    UpversionedIs today (.Version010 ⟨name, f, some lc⟩)
      (.task ⟨name, some (dateFromNaive d), dateFromNaive dd, .Days f, false⟩) := by
  simp only [UpversionedIs, hparse]
  exact Or.inl ⟨dd, hnext, rfl⟩

/-- C4 witness: the spec's concrete migration scenario — legacy
`{name: "X", frequency_days: 7, last_completed: "2020-01-01"}` upgrades to
completion 2020-01-01, due 2020-01-08 (serialized as "2020-01-08"),
`Days(7)`, `at_least = false`. -/
theorem C4_witness :
    UpversionedIs ⟨2021, 6, 15⟩ (.Version010 ⟨['X'], 7,
        some ⟨['2', '0', '2', '0', '-', '0', '1', '-', '0', '1']⟩⟩)
      (.task ⟨['X'], some (dateFromNaive ⟨2020, 1, 1⟩), dateFromNaive ⟨2020, 1, 8⟩,
        .Days 7, false⟩) ∧
    dateFromNaive ⟨2020, 1, 8⟩ = ⟨['2', '0', '2', '0', '-', '0', '1', '-', '0', '8']⟩ :=
  ⟨C4_upgrade ⟨2021, 6, 15⟩ ['X'] 7 ⟨['2', '0', '2', '0', '-', '0', '1', '-', '0', '1']⟩
      ⟨2020, 1, 1⟩ ⟨2020, 1, 8⟩ (by decide) ⟨2, by decide⟩,
   by decide⟩
